import Mathlib

/-!
Verification of the option ordering and mutation engine of `votes/models.py`:
the `Vote` aggregate with its `Option` rows, the renumbering normalisation
pass, and the add / delete / move-up / move-down operations.

Modelling conventions, read off the source:
* An `Option` database row becomes `OptionRow`; its Django fields
  (`number : IntegerField`, `name`, `description`, `picture_url`,
  `personal_link`, `link_name`, `count`) become record fields, with the
  primary key as `id`.
* A `Vote`'s persistent state is its `min_votes` / `max_votes`, its
  one-to-one `Status`, and the multiset of its `option_set` rows,
  represented as a list (list order is a representation artifact:
  database row order is never observable, every read goes through
  `order_by` or a unique-result filter).
* `self.option_set.order_by("number")` becomes a stable sort by `number`
  (`List.insertionSort`); ties cannot occur in states reachable by the
  engine, where numbers are pairwise distinct.
* `obj.save()` becomes `saveRow`: update the row with the same primary
  key, inserting if absent (Django's update-or-insert semantics).
* `raise ValueError` and the `queryset[0]` index error on an empty
  queryset become `Except.error` values; `@transaction.atomic` means an
  error aborts the whole operation, so an erroring operation returns no
  new state at all.
* The `option` argument of `deleteOption` / `moveUpOption` /
  `moveDownOption` is an in-memory model instance: `renumberOptions`
  re-fetches fresh instances from the store and does not refresh the
  passed object, so after the internal renumbering the argument's
  `number` attribute keeps its pre-call value.  The embedding keeps the
  argument as a row value `o` and uses `o.number` exactly where the
  source uses `option.number`.
-/

/-- One persisted `Option` row (`class Option(models.Model)`).  `id` is the
auto primary key; the remaining fields are the model's columns. -/
structure OptionRow where
  id : Nat
  number : Int
  name : String
  description : String
  picture_url : String
  personal_link : String
  link_name : String
  count : Int
deriving DecidableEq, Repr

/-- The `Status` row owned by a vote (`class Status(models.Model)`): only its
`stage` column matters to the engine. -/
structure Status where
  stage : String
deriving DecidableEq, Repr

/-- Stage constant INIT, the character "I". -/
def Status.INIT : String := "I"

/-- Stage constant STAGED, the character "S". -/
def Status.STAGED : String := "S"

/-- Stage constant OPEN, the character "O". -/
def Status.OPEN : String := "O"

/-- Stage constant CLOSE, the character "C". -/
def Status.CLOSE : String := "C"

/-- Stage constant PUBLIC, the character "P". -/
def Status.PUBLIC : String := "P"

/-- The persistent state of one `Vote` together with its owned `Option`
rows (`option_set`). -/
structure Vote where
  min_votes : Int
  max_votes : Int
  status : Status
  options : List OptionRow
deriving DecidableEq, Repr

/-- Embedding of `self.option_set.order_by("number")`: the rows sorted by
`number`, stably. -/
def orderByNumber (l : List OptionRow) : List OptionRow :=
  l.insertionSort (fun a b => a.number ≤ b.number)

/-- The enumeration loop body of `renumberOptions`: give the rows of `l`
the consecutive numbers `k, k+1, …` in list order. -/
def assignNumbers : List OptionRow → Nat → List OptionRow
  | [], _ => []
  | o :: rest, k => { o with number := (k : Int) } :: assignNumbers rest (k + 1)

/-- Embedding of `obj.save()` against a row list: update the row with the same primary
key, or insert the row if no such key exists. -/
def saveRow (l : List OptionRow) (o : OptionRow) : List OptionRow :=
  if l.any (fun r => r.id == o.id) then
    l.map (fun r => if r.id == o.id then o else r)
  else
    l ++ [o]

/-- Embedding of the id list read `values_list` performs: the primary keys of a
row list. -/
def ids (l : List OptionRow) : List Nat :=
  l.map (fun r => r.id)

/-- The `number` column of a row list. -/
def numbers (l : List OptionRow) : List Int :=
  l.map (fun r => r.number)

/-- Embedding of `Vote.canBeModified`: `return self.status.stage == "I"`. -/
def Vote.canBeModified (v : Vote) : Bool :=
  v.status.stage == "I"

/-- Embedding of `Vote.renumberOptions`: the loop gives each row of the
sorted option set its enumeration index as `number` and saves it. -/
def Vote.renumberOptions (v : Vote) : Vote :=
  { v with options := assignNumbers (orderByNumber v.options) 0 }

/-- The two error exits of the engine: `raise ValueError` when the passed
option does not belong to the vote, and the `IndexError` of `queryset[0]`
when the expected neighbouring row is absent. -/
inductive Err where
  | valueError
  | indexError
deriving DecidableEq, Repr

/-- Embedding of `Vote.deleteOption(option)`: membership check, `option.delete()`,
recount, downward clamping of `min_votes` / `max_votes`, `self.save()`,
then `renumberOptions`. -/
def Vote.deleteOption (v : Vote) (o : OptionRow) : Except Err Vote :=
  if o.id ∈ ids v.options then
    Except.ok (Vote.renumberOptions
      { v with
        options := v.options.filter (fun r => r.id ≠ o.id),
        min_votes :=
          if v.min_votes > ((v.options.filter (fun r => r.id ≠ o.id)).length : Int) then
            ((v.options.filter (fun r => r.id ≠ o.id)).length : Int)
          else v.min_votes,
        max_votes :=
          if v.max_votes > ((v.options.filter (fun r => r.id ≠ o.id)).length : Int) then
            ((v.options.filter (fun r => r.id ≠ o.id)).length : Int)
          else v.max_votes })
  else
    Except.error Err.valueError

/-- The id of a freshly inserted row: the store's auto-increment key,
distinct from every existing id. -/
def freshId (l : List OptionRow) : Nat :=
  (l.map (fun r => r.id)).foldr max 0 + 1

/-- Embedding of `Vote.addOption()`: renumber, set `num = option_set.count()`, create
`Option(vote=self, number=num, name="Option #"+str(num+1))` with the model
defaults (`description`, urls, `link_name` blank, `count = 0`), save it. -/
def Vote.addOption (v : Vote) : Vote :=
  { v.renumberOptions with
    options := (v.renumberOptions).options ++
      [{ id := freshId (v.renumberOptions).options,
         number := ((v.renumberOptions).options.length : Int),
         name := "Option #" ++ toString ((v.renumberOptions).options.length + 1),
         description := "", picture_url := "", personal_link := "",
         link_name := "", count := 0 }] }

/-- Embedding of `Vote.moveDownOption(option)`: membership check, renumber, early return
at `option.number == 0`, fetch the row `below` at `number = option.number - 1`,
swap the two numbers, save `below` then `option`.  The argument's `number`
is its pre-renumbering value (the instance is not refreshed). -/
def Vote.moveDownOption (v : Vote) (o : OptionRow) : Except Err Vote :=
  if o.id ∈ ids v.options then
    if o.number = 0 then
      Except.ok v.renumberOptions
    else
      match (v.renumberOptions).options.find? (fun r => r.number == o.number - 1) with
      | none => Except.error Err.indexError
      | some below =>
        Except.ok { v.renumberOptions with
          options := saveRow (saveRow (v.renumberOptions).options
            { below with number := o.number }) { o with number := o.number - 1 } }
  else
    Except.error Err.valueError

/-- Embedding of `Vote.moveUpOption(option)`: membership check, renumber, early return at
`option.number == option_set.count() - 1`, fetch the row `above` at
`number = option.number + 1`, swap the two numbers, save `above` then
`option`. -/
def Vote.moveUpOption (v : Vote) (o : OptionRow) : Except Err Vote :=
  if o.id ∈ ids v.options then
    if o.number = ((v.renumberOptions).options.length : Int) - 1 then
      Except.ok v.renumberOptions
    else
      match (v.renumberOptions).options.find? (fun r => r.number == o.number + 1) with
      | none => Except.error Err.indexError
      | some above =>
        Except.ok { v.renumberOptions with
          options := saveRow (saveRow (v.renumberOptions).options
            { above with number := o.number }) { o with number := o.number + 1 } }
  else
    Except.error Err.valueError

/-- The structural-mutation calls a caller can issue against one vote; a
`delete` / `moveUp` / `moveDown` call passes the vote's current row with
the given id (a fresh snapshot), and errors if no such row exists. -/
inductive Cmd where
  | add
  | delete (i : Nat)
  | moveUp (i : Nat)
  | moveDown (i : Nat)
deriving DecidableEq, Repr

/-- The vote's current row with primary key `i`, if any. -/
def findRow (v : Vote) (i : Nat) : Option OptionRow :=
  v.options.find? (fun r => r.id == i)

/-- Run one structural-mutation call. -/
def runCmd (v : Vote) : Cmd → Except Err Vote
  | Cmd.add => Except.ok v.addOption
  | Cmd.delete i =>
    match findRow v i with
    | some o => v.deleteOption o
    | none => Except.error Err.valueError
  | Cmd.moveUp i =>
    match findRow v i with
    | some o => v.moveUpOption o
    | none => Except.error Err.valueError
  | Cmd.moveDown i =>
    match findRow v i with
    | some o => v.moveDownOption o
    | none => Except.error Err.valueError

/-- Run a finite sequence of structural-mutation calls, stopping at the
first error. -/
def runCmds (v : Vote) : List Cmd → Except Err Vote
  | [] => Except.ok v
  | c :: cs =>
    match runCmd v c with
    | Except.ok w => runCmds w cs
    | Except.error e => Except.error e

/-- The numbers `0, …, n-1` as integers. -/
def rangeInt (n : Nat) : List Int :=
  (List.range n).map Int.ofNat

/-- A vote's numbering is dense, gap-free and zero-based: its numbers are
exactly `{0, …, count-1}`. -/
def Contiguous (v : Vote) : Prop :=
  List.Perm (numbers v.options) (rangeInt v.options.length)

/-- The vote's rows carry pairwise distinct primary keys (a database
invariant: `id` is the primary key). -/
def NodupIds (v : Vote) : Prop :=
  (ids v.options).Nodup

instance : DecidablePred Contiguous := by
  intro v
  unfold Contiguous
  infer_instance

instance : DecidablePred NodupIds := by
  intro v
  unfold NodupIds
  infer_instance

/-! Helper lemmas about `assignNumbers`, `orderByNumber`, `renumberOptions`. -/

theorem assignNumbers_length (l : List OptionRow) (k : Nat) :
    (assignNumbers l k).length = l.length := by
  induction l generalizing k with
  | nil => rfl
  | cons o rest ih => simp [assignNumbers, ih]

theorem ids_assignNumbers (l : List OptionRow) (k : Nat) :
    ids (assignNumbers l k) = ids l := by
  induction l generalizing k with
  | nil => rfl
  | cons o rest ih => simp [assignNumbers, ids, ids] at ih ⊢; exact ih (k + 1)

theorem numbers_assignNumbers (l : List OptionRow) (k : Nat) :
    numbers (assignNumbers l k) = (List.range' k l.length).map Int.ofNat := by
  induction l generalizing k with
  | nil => rfl
  | cons o rest ih =>
    simp only [assignNumbers, numbers, List.map_cons, List.length_cons,
      List.range'_succ]
    refine List.cons_eq_cons.2 ⟨rfl, ?_⟩
    exact ih (k + 1)

theorem assignNumbers_eq_self (l : List OptionRow) (k : Nat)
    (h : numbers l = (List.range' k l.length).map Int.ofNat) :
    assignNumbers l k = l := by
  induction l generalizing k with
  | nil => rfl
  | cons o rest ih =>
    simp only [numbers, List.map_cons, List.length_cons, List.range'_succ] at h
    obtain ⟨h1, h2⟩ := List.cons.inj h
    simp only [assignNumbers]
    refine List.cons_eq_cons.2 ⟨?_, ?_⟩
    · calc { o with number := (k : Int) } = { o with number := o.number } := by rw [h1]; rfl
      _ = o := rfl
    · exact ih (k + 1) h2

theorem numbers_assignNumbers_zero (l : List OptionRow) :
    numbers (assignNumbers l 0) = rangeInt l.length := by
  rw [numbers_assignNumbers]
  unfold rangeInt
  rw [List.range_eq_range' l.length]

instance : IsTotal OptionRow (fun a b => a.number ≤ b.number) :=
  ⟨fun a b => Int.le_total a.number b.number⟩

instance : IsTrans OptionRow (fun a b => a.number ≤ b.number) :=
  ⟨fun _ _ _ hab hbc => le_trans hab hbc⟩

theorem orderByNumber_perm (l : List OptionRow) :
    List.Perm (orderByNumber l) l :=
  List.perm_insertionSort _ l

theorem orderByNumber_sorted (l : List OptionRow) :
    List.Sorted (fun a b => a.number ≤ b.number) (orderByNumber l) :=
  List.sorted_insertionSort _ l

theorem numbers_perm_of_perm {l l' : List OptionRow} (h : List.Perm l l') :
    List.Perm (numbers l) (numbers l') :=
  h.map _

theorem ids_perm_of_perm {l l' : List OptionRow} (h : List.Perm l l') :
    List.Perm (ids l) (ids l') :=
  h.map _

theorem numbers_sorted_orderByNumber (l : List OptionRow) :
    List.Sorted (fun a b : Int => a ≤ b) (numbers (orderByNumber l)) :=
  List.Pairwise.map _ (fun _ _ h => h) (orderByNumber_sorted l)

theorem rangeInt_sorted (n : Nat) :
    List.Sorted (fun a b : Int => a ≤ b) (rangeInt n) := by
  unfold rangeInt
  refine List.Pairwise.map _ (fun a b h => ?_) (List.pairwise_lt_range n)
  simp only [Int.ofNat_eq_coe]
  omega

theorem rangeInt_nodup (n : Nat) : (rangeInt n).Nodup := by
  unfold rangeInt
  refine List.Nodup.map (fun a b h => ?_) (List.nodup_range n)
  simp only [Int.ofNat_eq_coe] at h
  omega

theorem rangeInt_length (n : Nat) : (rangeInt n).length = n := by
  simp [rangeInt]

theorem rangeInt_succ (n : Nat) : rangeInt (n + 1) = rangeInt n ++ [(n : Int)] := by
  simp only [rangeInt, List.range_succ, List.map_append, List.map_cons, List.map_nil]
  rfl

theorem mem_rangeInt {n : Nat} {x : Int} : x ∈ rangeInt n ↔ 0 ≤ x ∧ x < (n : Int) := by
  unfold rangeInt
  simp only [List.mem_map, List.mem_range, Int.ofNat_eq_coe]
  constructor
  · rintro ⟨i, hi, rfl⟩
    omega
  · rintro ⟨h0, hn⟩
    exact ⟨x.toNat, by omega, by omega⟩

theorem numbers_orderByNumber_of_contiguous {l : List OptionRow}
    (h : List.Perm (numbers l) (rangeInt l.length)) :
    numbers (orderByNumber l) = rangeInt l.length :=
  List.eq_of_perm_of_sorted ((numbers_perm_of_perm (orderByNumber_perm l)).trans h)
    (numbers_sorted_orderByNumber l) (rangeInt_sorted l.length)

theorem renumberOptions_options_of_contiguous {v : Vote} (h : Contiguous v) :
    (Vote.renumberOptions v).options = orderByNumber v.options := by
  unfold Vote.renumberOptions
  apply assignNumbers_eq_self
  have hs := numbers_orderByNumber_of_contiguous h
  rw [hs]
  have hlen : (orderByNumber v.options).length = v.options.length :=
    (orderByNumber_perm v.options).length_eq
  rw [hlen]
  unfold rangeInt
  rw [List.range_eq_range' v.options.length]

theorem renumberOptions_perm_of_contiguous {v : Vote} (h : Contiguous v) :
    List.Perm (Vote.renumberOptions v).options v.options := by
  rw [renumberOptions_options_of_contiguous h]
  exact orderByNumber_perm v.options

theorem renumberOptions_contiguous (v : Vote) :
    Contiguous (Vote.renumberOptions v) := by
  unfold Contiguous
  show List.Perm (numbers (assignNumbers (orderByNumber v.options) 0)) _
  rw [numbers_assignNumbers_zero]
  have h1 : (assignNumbers (orderByNumber v.options) 0).length =
      (orderByNumber v.options).length := assignNumbers_length _ _
  exact h1 ▸ List.Perm.refl _

theorem ids_renumberOptions_perm (v : Vote) :
    List.Perm (ids (Vote.renumberOptions v).options) (ids v.options) := by
  show List.Perm (ids (assignNumbers (orderByNumber v.options) 0)) _
  rw [ids_assignNumbers]
  exact ids_perm_of_perm (orderByNumber_perm v.options)

theorem renumberOptions_nodupIds {v : Vote} (h : NodupIds v) :
    NodupIds (Vote.renumberOptions v) :=
  ((ids_renumberOptions_perm v).nodup_iff).2 h

theorem renumberOptions_length (v : Vote) :
    (Vote.renumberOptions v).options.length = v.options.length := by
  show (assignNumbers (orderByNumber v.options) 0).length = _
  rw [assignNumbers_length]
  exact (orderByNumber_perm v.options).length_eq

/-! Helper lemmas about `saveRow`. -/

theorem saveRow_eq_map {l : List OptionRow} {x : OptionRow} (h : x.id ∈ ids l) :
    saveRow l x = l.map (fun r => if r.id == x.id then x else r) := by
  unfold saveRow
  rw [if_pos]
  obtain ⟨a, ha, hid⟩ := List.mem_map.1 h
  rw [List.any_eq_true]
  exact ⟨a, ha, by simp [hid]⟩

theorem ids_replace (l : List OptionRow) (x : OptionRow) :
    ids (l.map (fun r => if r.id == x.id then x else r)) = ids l := by
  unfold ids
  rw [List.map_map]
  apply List.map_congr_left
  intro r _
  by_cases h : r.id = x.id
  · simp [Function.comp, h]
  · simp [Function.comp, h]

theorem map_replace_of_not_mem (t : List OptionRow) (x : OptionRow)
    (h : x.id ∉ ids t) :
    t.map (fun r => if r.id == x.id then x else r) = t := by
  induction t with
  | nil => rfl
  | cons c t' ih =>
    simp only [ids, List.map_cons, List.mem_cons, not_or] at h
    obtain ⟨h1, h2⟩ := h
    rw [List.map_cons, if_neg (by simp; omega), ih h2]

theorem replace_perm (l : List OptionRow) (a x : OptionRow)
    (hn : (ids l).Nodup) (ha : a ∈ l) (hx : x.id = a.id) :
    List.Perm (l.map (fun r => if r.id == x.id then x else r)) (x :: l.erase a) := by
  induction l with
  | nil => cases ha
  | cons c t ih =>
    simp only [ids, List.map_cons, List.nodup_cons] at hn
    obtain ⟨hcnot, hnt⟩ := hn
    by_cases hca : c.id = x.id
    · have hac : a = c := by
        rcases List.mem_cons.1 ha with h | h
        · exact h
        · exact absurd (by rw [hca, hx]; exact List.mem_map_of_mem _ h) hcnot
      subst hac
      rw [List.map_cons, if_pos (by simp [hca]), List.erase_cons_head,
        map_replace_of_not_mem t x (by unfold ids; rw [← hca]; exact hcnot)]
    · have hac : a ∈ t := by
        rcases List.mem_cons.1 ha with h | h
        · exact absurd (by rw [hx, h]) hca
        · exact h
      have hcane : ¬(c == a) = true := by
        simp only [beq_iff_eq]
        intro hce
        exact hca (by rw [hce, ← hx])
      rw [List.map_cons, if_neg (by simp [hca]), List.erase_cons_tail hcane]
      exact ((ih hnt hac).cons c).trans (List.Perm.swap x c _)

theorem ids_erase_nodup {l : List OptionRow} (b : OptionRow)
    (hn : (ids l).Nodup) : (ids (l.erase b)).Nodup :=
  ((List.erase_sublist b l).map _).nodup hn

theorem doubleSave_perm (s : List OptionRow) (b o b' o' : OptionRow)
    (hn : (ids s).Nodup) (hb : b ∈ s) (ho : o ∈ s) (hbo : b.id ≠ o.id)
    (hb' : b'.id = b.id) (ho' : o'.id = o.id) :
    List.Perm (saveRow (saveRow s b') o') (b' :: o' :: (s.erase b).erase o) := by
  have hbm : b'.id ∈ ids s := by rw [hb']; exact List.mem_map_of_mem _ hb
  rw [saveRow_eq_map hbm]
  have hom : o'.id ∈ ids (s.map (fun r => if r.id == b'.id then b' else r)) := by
    rw [ids_replace, ho']
    exact List.mem_map_of_mem _ ho
  rw [saveRow_eq_map hom]
  have h1 : List.Perm (s.map (fun r => if r.id == b'.id then b' else r))
      (b' :: s.erase b) := replace_perm s b b' hn hb hb'
  have h2 := h1.map (fun r => if r.id == o'.id then o' else r)
  rw [List.map_cons] at h2
  have hbne : ¬(b'.id == o'.id) = true := by
    simp only [beq_iff_eq, hb', ho']
    exact hbo
  rw [if_neg hbne] at h2
  have hone : o ≠ b := fun h => hbo (by rw [h])
  have hoe : o ∈ s.erase b := (List.mem_erase_of_ne hone).2 ho
  have h3 : List.Perm ((s.erase b).map (fun r => if r.id == o'.id then o' else r))
      (o' :: (s.erase b).erase o) :=
    replace_perm (s.erase b) o o' (ids_erase_nodup b hn) hoe ho'
  exact h2.trans (h3.cons b')

/-! The successful swap path of the move operations. -/

theorem find?_number {s : List OptionRow} {t : Int} (h : t ∈ numbers s) :
    ∃ b, s.find? (fun r => r.number == t) = some b ∧ b ∈ s ∧ b.number = t := by
  obtain ⟨a, ha, hat⟩ := List.mem_map.1 h
  have hsome : (s.find? (fun r => r.number == t)).isSome = true :=
    List.find?_isSome.2 ⟨a, ha, by simp [hat]⟩
  cases hfind : s.find? (fun r => r.number == t) with
  | none => rw [hfind] at hsome; cases hsome
  | some b =>
    refine ⟨b, rfl, List.mem_of_find?_eq_some hfind, ?_⟩
    have := List.find?_some hfind
    simpa using this

theorem numbers_renumberOptions (v : Vote) :
    numbers (Vote.renumberOptions v).options = rangeInt v.options.length := by
  show numbers (assignNumbers (orderByNumber v.options) 0) = _
  rw [numbers_assignNumbers_zero, (orderByNumber_perm v.options).length_eq]

theorem mem_ids_of_mem {l : List OptionRow} {o : OptionRow} (h : o ∈ l) :
    o.id ∈ ids l :=
  List.mem_map_of_mem _ h

theorem nodupIds_orderByNumber {v : Vote} (hn : NodupIds v) :
    (ids (orderByNumber v.options)).Nodup :=
  ((ids_perm_of_perm (orderByNumber_perm v.options)).nodup_iff).2 hn

theorem number_bounds {v : Vote} {o : OptionRow} (hc : Contiguous v)
    (ho : o ∈ v.options) :
    0 ≤ o.number ∧ o.number < (v.options.length : Int) := by
  have h1 : o.number ∈ numbers v.options := List.mem_map_of_mem _ ho
  have h2 : o.number ∈ rangeInt v.options.length := hc.mem_iff.1 h1
  exact mem_rangeInt.1 h2

theorem moveUpOption_ok {v : Vote} {o : OptionRow} (hn : NodupIds v) (hc : Contiguous v)
    (ho : o ∈ v.options) (hk : o.number + 1 < (v.options.length : Int)) :
    ∃ b w, b ∈ v.options ∧ b.number = o.number + 1 ∧ b.id ≠ o.id ∧
      v.moveUpOption o = Except.ok w ∧
      List.Perm w.options
        ({ b with number := o.number } :: { o with number := o.number + 1 } ::
          (v.options.erase b).erase o) ∧
      w.min_votes = v.min_votes ∧ w.max_votes = v.max_votes ∧ w.status = v.status := by
  have hs := renumberOptions_options_of_contiguous hc
  have hnum : numbers (orderByNumber v.options) = rangeInt v.options.length :=
    numbers_orderByNumber_of_contiguous hc
  have hsperm : List.Perm (orderByNumber v.options) v.options := orderByNumber_perm _
  have hos : o ∈ orderByNumber v.options := hsperm.mem_iff.2 ho
  have hob := number_bounds hc ho
  have hnb : o.number + 1 ∈ numbers (orderByNumber v.options) := by
    rw [hnum]
    exact mem_rangeInt.2 ⟨by omega, hk⟩
  obtain ⟨b, hfind, hbs, hbnum⟩ := find?_number hnb
  have hbv : b ∈ v.options := hsperm.mem_iff.1 hbs
  have hnods : (ids (orderByNumber v.options)).Nodup := nodupIds_orderByNumber hn
  have hbo : b.id ≠ o.id := by
    intro h
    have hbe : b = o := List.inj_on_of_nodup_map hnods hbs hos h
    rw [hbe] at hbnum
    omega
  have hmem : o.id ∈ ids v.options := mem_ids_of_mem ho
  have hne : ¬(o.number = ((Vote.renumberOptions v).options.length : Int) - 1) := by
    rw [renumberOptions_length]
    omega
  have heq : v.moveUpOption o = Except.ok { v.renumberOptions with
      options := saveRow (saveRow (orderByNumber v.options)
        { b with number := o.number }) { o with number := o.number + 1 } } := by
    unfold Vote.moveUpOption
    rw [if_pos hmem, if_neg hne, hs, hfind]
  refine ⟨b, _, hbv, hbnum, hbo, heq, ?_, rfl, rfl, rfl⟩
  show List.Perm (saveRow (saveRow (orderByNumber v.options)
    { b with number := o.number }) { o with number := o.number + 1 }) _
  have hd := doubleSave_perm (orderByNumber v.options) b o
    { b with number := o.number } { o with number := o.number + 1 }
    hnods hbs hos hbo rfl rfl
  refine hd.trans ?_
  exact List.Perm.cons _ (List.Perm.cons _ ((hsperm.erase b).erase o))

theorem moveDownOption_ok {v : Vote} {o : OptionRow} (hn : NodupIds v) (hc : Contiguous v)
    (ho : o ∈ v.options) (hk : 0 < o.number) :
    ∃ b w, b ∈ v.options ∧ b.number = o.number - 1 ∧ b.id ≠ o.id ∧
      v.moveDownOption o = Except.ok w ∧
      List.Perm w.options
        ({ b with number := o.number } :: { o with number := o.number - 1 } ::
          (v.options.erase b).erase o) ∧
      w.min_votes = v.min_votes ∧ w.max_votes = v.max_votes ∧ w.status = v.status := by
  have hs := renumberOptions_options_of_contiguous hc
  have hnum : numbers (orderByNumber v.options) = rangeInt v.options.length :=
    numbers_orderByNumber_of_contiguous hc
  have hsperm : List.Perm (orderByNumber v.options) v.options := orderByNumber_perm _
  have hos : o ∈ orderByNumber v.options := hsperm.mem_iff.2 ho
  have hob := number_bounds hc ho
  have hnb : o.number - 1 ∈ numbers (orderByNumber v.options) := by
    rw [hnum]
    exact mem_rangeInt.2 ⟨by omega, by omega⟩
  obtain ⟨b, hfind, hbs, hbnum⟩ := find?_number hnb
  have hbv : b ∈ v.options := hsperm.mem_iff.1 hbs
  have hnods : (ids (orderByNumber v.options)).Nodup := nodupIds_orderByNumber hn
  have hbo : b.id ≠ o.id := by
    intro h
    have hbe : b = o := List.inj_on_of_nodup_map hnods hbs hos h
    rw [hbe] at hbnum
    omega
  have hmem : o.id ∈ ids v.options := mem_ids_of_mem ho
  have hne : ¬(o.number = 0) := by omega
  have heq : v.moveDownOption o = Except.ok { v.renumberOptions with
      options := saveRow (saveRow (orderByNumber v.options)
        { b with number := o.number }) { o with number := o.number - 1 } } := by
    unfold Vote.moveDownOption
    rw [if_pos hmem, if_neg hne, hs, hfind]
  refine ⟨b, _, hbv, hbnum, hbo, heq, ?_, rfl, rfl, rfl⟩
  show List.Perm (saveRow (saveRow (orderByNumber v.options)
    { b with number := o.number }) { o with number := o.number - 1 }) _
  have hd := doubleSave_perm (orderByNumber v.options) b o
    { b with number := o.number } { o with number := o.number - 1 }
    hnods hbs hos hbo rfl rfl
  refine hd.trans ?_
  exact List.Perm.cons _ (List.Perm.cons _ ((hsperm.erase b).erase o))

/-! The numbering invariant under sequences of operations. -/

theorem foldr_max_le {l : List Nat} {x : Nat} (h : x ∈ l) : x ≤ l.foldr max 0 := by
  induction l with
  | nil => cases h
  | cons c t ih =>
    rcases List.mem_cons.1 h with h | h
    · rw [h, List.foldr_cons]
      exact le_max_left _ _
    · exact le_trans (ih h) (le_max_right _ _)

theorem freshId_not_mem (l : List OptionRow) : freshId l ∉ ids l := by
  intro h
  have := foldr_max_le h
  unfold freshId at this
  unfold ids at this
  omega

theorem addOption_nodupIds {v : Vote} (hn : NodupIds v) :
    NodupIds v.addOption := by
  unfold NodupIds Vote.addOption
  show (ids ((Vote.renumberOptions v).options ++ [_])).Nodup
  unfold ids
  rw [List.map_append, List.nodup_append]
  refine ⟨renumberOptions_nodupIds hn, List.nodup_singleton _, ?_⟩
  intro a ha hb
  simp only [List.map_cons, List.map_nil, List.mem_singleton] at hb
  rw [hb] at ha
  exact freshId_not_mem (Vote.renumberOptions v).options ha

theorem addOption_contiguous (v : Vote) : Contiguous v.addOption := by
  unfold Contiguous Vote.addOption
  show List.Perm (numbers ((Vote.renumberOptions v).options ++ [_]))
    (rangeInt ((Vote.renumberOptions v).options ++ [_]).length)
  unfold numbers
  rw [List.map_append, List.length_append]
  show List.Perm (numbers (Vote.renumberOptions v).options ++ [((Vote.renumberOptions v).options.length : Int)]) _
  rw [numbers_renumberOptions, renumberOptions_length, List.length_singleton,
    rangeInt_succ]

theorem swap_preserves_inv {v w : Vote} {b o : OptionRow}
    (hn : NodupIds v) (hc : Contiguous v) (hb : b ∈ v.options) (ho : o ∈ v.options)
    (hne : o ≠ b)
    (hperm : List.Perm w.options
      ({ b with number := o.number } :: { o with number := b.number } ::
        (v.options.erase b).erase o)) :
    NodupIds w ∧ Contiguous w := by
  have h1 : List.Perm v.options (b :: v.options.erase b) := List.perm_cons_erase hb
  have hoe : o ∈ v.options.erase b := (List.mem_erase_of_ne hne).2 ho
  have h2 : List.Perm (v.options.erase b) (o :: (v.options.erase b).erase o) :=
    List.perm_cons_erase hoe
  have h3 : List.Perm v.options (b :: o :: (v.options.erase b).erase o) :=
    h1.trans (h2.cons b)
  have hidw := ids_perm_of_perm hperm
  have hidv := ids_perm_of_perm h3
  simp only [ids, List.map_cons] at hidw hidv
  have hids : List.Perm (ids w.options) (ids v.options) := by
    unfold ids
    refine hidw.trans (List.Perm.trans ?_ hidv.symm)
    exact List.Perm.refl _
  have hnw := numbers_perm_of_perm hperm
  have hnv := numbers_perm_of_perm h3
  simp only [numbers, List.map_cons] at hnw hnv
  have hnums : List.Perm (numbers w.options) (numbers v.options) := by
    unfold numbers
    refine hnw.trans (List.Perm.trans ?_ hnv.symm)
    exact List.Perm.swap _ _ _
  constructor
  · exact (hids.nodup_iff).2 hn
  · unfold Contiguous at hc ⊢
    have hlen : w.options.length = v.options.length := by
      have := hnums.length_eq
      simpa [numbers] using this
    rw [hlen]
    exact hnums.trans hc

theorem deleteOption_ok {v : Vote} {o : OptionRow} (ho : o ∈ v.options) :
    v.deleteOption o = Except.ok (Vote.renumberOptions
      { v with
        options := v.options.filter (fun r => r.id ≠ o.id),
        min_votes :=
          if v.min_votes > ((v.options.filter (fun r => r.id ≠ o.id)).length : Int) then
            ((v.options.filter (fun r => r.id ≠ o.id)).length : Int)
          else v.min_votes,
        max_votes :=
          if v.max_votes > ((v.options.filter (fun r => r.id ≠ o.id)).length : Int) then
            ((v.options.filter (fun r => r.id ≠ o.id)).length : Int)
          else v.max_votes }) := by
  unfold Vote.deleteOption
  rw [if_pos (mem_ids_of_mem ho)]

theorem filter_nodupIds {v : Vote} (hn : NodupIds v) (p : OptionRow → Bool) :
    (ids (v.options.filter p)).Nodup := by
  unfold ids
  unfold NodupIds at hn
  exact ((List.filter_sublist v.options).map _).nodup hn

theorem findRow_mem {v : Vote} {i : Nat} {o : OptionRow}
    (h : findRow v i = some o) : o ∈ v.options ∧ o.id = i := by
  refine ⟨List.mem_of_find?_eq_some h, ?_⟩
  have := List.find?_some h
  simpa using this

theorem runCmd_inv {v w : Vote} {c : Cmd} (hn : NodupIds v) (hc : Contiguous v)
    (h : runCmd v c = Except.ok w) : NodupIds w ∧ Contiguous w := by
  cases c with
  | add =>
    simp only [runCmd] at h
    obtain rfl : v.addOption = w := by
      cases h
      rfl
    exact ⟨addOption_nodupIds hn, addOption_contiguous v⟩
  | delete i =>
    simp only [runCmd] at h
    cases hf : findRow v i with
    | none => rw [hf] at h; exact absurd h (by simp)
    | some o =>
      rw [hf] at h
      obtain ⟨ho, _⟩ := findRow_mem hf
      have h2 : v.deleteOption o = Except.ok w := h
      rw [deleteOption_ok ho] at h2
      obtain rfl : _ = w := by
        cases h2
        rfl
      exact ⟨renumberOptions_nodupIds (by exact filter_nodupIds hn _),
        renumberOptions_contiguous _⟩
  | moveUp i =>
    simp only [runCmd] at h
    cases hf : findRow v i with
    | none => rw [hf] at h; exact absurd h (by simp)
    | some o =>
      rw [hf] at h
      obtain ⟨ho, _⟩ := findRow_mem hf
      have h2 : v.moveUpOption o = Except.ok w := h
      have hob := number_bounds hc ho
      by_cases hend : o.number = (v.options.length : Int) - 1
      · have heq : v.moveUpOption o = Except.ok v.renumberOptions := by
          unfold Vote.moveUpOption
          rw [if_pos (mem_ids_of_mem ho), if_pos (by rw [renumberOptions_length]; omega)]
        rw [heq] at h2
        obtain rfl : Vote.renumberOptions v = w := by
          cases h2
          rfl
        exact ⟨renumberOptions_nodupIds hn, renumberOptions_contiguous v⟩
      · obtain ⟨b, w', hbv, hbnum, hbo, heq, hperm, _, _, _⟩ :=
          moveUpOption_ok hn hc ho (by omega)
        rw [heq] at h2
        obtain rfl : w' = w := by
          cases h2
          rfl
        refine swap_preserves_inv hn hc hbv ho (fun he => hbo (by rw [he])) ?_
        rw [← hbnum] at hperm
        exact hperm
  | moveDown i =>
    simp only [runCmd] at h
    cases hf : findRow v i with
    | none => rw [hf] at h; exact absurd h (by simp)
    | some o =>
      rw [hf] at h
      obtain ⟨ho, _⟩ := findRow_mem hf
      have h2 : v.moveDownOption o = Except.ok w := h
      have hob := number_bounds hc ho
      by_cases hend : o.number = 0
      · have heq : v.moveDownOption o = Except.ok v.renumberOptions := by
          unfold Vote.moveDownOption
          rw [if_pos (mem_ids_of_mem ho), if_pos hend]
        rw [heq] at h2
        obtain rfl : Vote.renumberOptions v = w := by
          cases h2
          rfl
        exact ⟨renumberOptions_nodupIds hn, renumberOptions_contiguous v⟩
      · obtain ⟨b, w', hbv, hbnum, hbo, heq, hperm, _, _, _⟩ :=
          moveDownOption_ok hn hc ho (by omega)
        rw [heq] at h2
        obtain rfl : w' = w := by
          cases h2
          rfl
        refine swap_preserves_inv hn hc hbv ho (fun he => hbo (by rw [he])) ?_
        rw [← hbnum] at hperm
        exact hperm

theorem runCmds_inv {cs : List Cmd} : ∀ {v w : Vote}, NodupIds v → Contiguous v →
    runCmds v cs = Except.ok w → NodupIds w ∧ Contiguous w := by
  induction cs with
  | nil =>
    intro v w hn hc h
    obtain rfl : v = w := by
      unfold runCmds at h
      cases h
      rfl
    exact ⟨hn, hc⟩
  | cons c cs ih =>
    intro v w hn hc h
    unfold runCmds at h
    cases hrc : runCmd v c with
    | error e => rw [hrc] at h; exact absurd h (by simp)
    | ok u =>
      rw [hrc] at h
      obtain ⟨hnu, hcu⟩ := runCmd_inv hn hc hrc
      exact ih hnu hcu h

/-! Row preservation under `assignNumbers`. -/

theorem assignNumbers_mem : ∀ (l : List OptionRow) (k : Nat), ∀ o ∈ l,
    ∃ r ∈ assignNumbers l k, r.id = o.id ∧ r.name = o.name ∧
      r.description = o.description ∧ r.picture_url = o.picture_url ∧
      r.personal_link = o.personal_link ∧ r.link_name = o.link_name ∧
      r.count = o.count := by
  intro l
  induction l with
  | nil => intro k o ho; cases ho
  | cons c t ih =>
    intro k o ho
    rcases List.mem_cons.1 ho with h | h
    · subst h
      exact ⟨{ o with number := (k : Int) }, List.mem_cons_self _ _,
        rfl, rfl, rfl, rfl, rfl, rfl, rfl⟩
    · obtain ⟨r, hr, hprops⟩ := ih (k + 1) o h
      exact ⟨r, List.mem_cons_of_mem _ hr, hprops⟩

/-! Concrete states used to instantiate the theorems. -/

/-- A sample option row: id `i`, rank `n`, blank text fields. -/
def mkRow (i : Nat) (n : Int) : OptionRow :=
  { id := i, number := n, name := "x", description := "", picture_url := "",
    personal_link := "", link_name := "", count := (i : Int) }

/-- A five-option vote with the contiguous numbering 0..4. -/
def vFive : Vote :=
  { min_votes := 1, max_votes := 2, status := { stage := "I" },
    options := [mkRow 1 0, mkRow 2 1, mkRow 3 2, mkRow 4 3, mkRow 5 4] }

/-- A vote whose numbering has drifted to `[0, 3, 4]` (external tampering). -/
def vDrift : Vote :=
  { min_votes := 0, max_votes := 1, status := { stage := "I" },
    options := [mkRow 1 0, mkRow 2 3, mkRow 3 4] }

/-- The state `vDrift` reaches after `moveDownOption` on its middle option:
numbers `{0, 2, 3}`, no longer gap-free. -/
def vDriftAfter : Vote :=
  { min_votes := 0, max_votes := 1, status := { stage := "I" },
    options := [mkRow 1 0, { mkRow 2 3 with number := 2 }, { mkRow 3 4 with number := 3 }] }

/-- A two-option vote whose second option's number has drifted to 5. -/
def vGap : Vote :=
  { min_votes := 0, max_votes := 1, status := { stage := "I" },
    options := [mkRow 1 0, mkRow 2 5] }

/-- A three-option vote with `min_votes = 2`, `max_votes = 3` (the spec's
delete-clamps-bounds test). -/
def vClamp : Vote :=
  { min_votes := 2, max_votes := 3, status := { stage := "I" },
    options := [mkRow 1 0, mkRow 2 1, mkRow 3 2] }

/-- A vote with the tampered numbering `[5, 2, 9, 0]` from the spec's
renumbering test. -/
def vTamper : Vote :=
  { min_votes := 0, max_votes := 1, status := { stage := "I" },
    options := [mkRow 1 5, mkRow 2 2, mkRow 3 9, mkRow 4 0] }

/-! The claims. -/

/-- C9: `canBeModified()` returns true iff the vote's status stage is INIT
(`"I"`), and returns false when the stage is STAGED, OPEN, CLOSE or PUBLIC. -/
theorem canBeModified_spec :
    (∀ v : Vote, v.canBeModified = true ↔ v.status.stage = Status.INIT) ∧
    (∀ (m M : Int) (os : List OptionRow),
      Vote.canBeModified ⟨m, M, ⟨Status.INIT⟩, os⟩ = true ∧
      Vote.canBeModified ⟨m, M, ⟨Status.STAGED⟩, os⟩ = false ∧
      Vote.canBeModified ⟨m, M, ⟨Status.OPEN⟩, os⟩ = false ∧
      Vote.canBeModified ⟨m, M, ⟨Status.CLOSE⟩, os⟩ = false ∧
      Vote.canBeModified ⟨m, M, ⟨Status.PUBLIC⟩, os⟩ = false) := by
  constructor
  · intro v
    unfold Vote.canBeModified Status.INIT
    exact beq_iff_eq
  · intro m M os
    exact ⟨rfl, rfl, rfl, rfl, rfl⟩

/-- C5: passing an option whose id is not among the vote's option ids makes
`deleteOption`, `moveUpOption` and `moveDownOption` fail with `ValueError`;
no new state is produced, so nothing is mutated. -/
theorem foreignOption_valueError (v : Vote) (o : OptionRow)
    (h : o.id ∉ ids v.options) :
    v.deleteOption o = Except.error Err.valueError ∧
    v.moveUpOption o = Except.error Err.valueError ∧
    v.moveDownOption o = Except.error Err.valueError := by
  refine ⟨?_, ?_, ?_⟩
  · unfold Vote.deleteOption
    rw [if_neg h]
  · unfold Vote.moveUpOption
    rw [if_neg h]
  · unfold Vote.moveDownOption
    rw [if_neg h]

/-- C5 witness: a concrete foreign option against `vFive`. -/
theorem foreignOption_valueError_witness :
    (mkRow 99 0).id ∉ ids vFive.options ∧
    (vFive.deleteOption (mkRow 99 0) = Except.error Err.valueError ∧
     vFive.moveUpOption (mkRow 99 0) = Except.error Err.valueError ∧
     vFive.moveDownOption (mkRow 99 0) = Except.error Err.valueError) :=
  ⟨by decide, foreignOption_valueError vFive (mkRow 99 0) (by decide)⟩

/-- C8: `addOption` renumbers the existing options and then appends exactly
one new option, numbered with the pre-insertion count and named
`"Option #" + (count+1)`. -/
theorem addOption_spec (v : Vote) :
    ∃ opt, (Vote.addOption v).options = (Vote.renumberOptions v).options ++ [opt] ∧
      opt.number = (v.options.length : Int) ∧
      opt.name = "Option #" ++ toString (v.options.length + 1) ∧
      (Vote.addOption v).options.length = v.options.length + 1 := by
  refine ⟨_, rfl, ?_, ?_, ?_⟩
  · show ((Vote.renumberOptions v).options.length : Int) = _
    rw [renumberOptions_length]
  · show "Option #" ++ toString ((Vote.renumberOptions v).options.length + 1) = _
    rw [renumberOptions_length]
  · show ((Vote.renumberOptions v).options ++ [_]).length = _
    rw [List.length_append, renumberOptions_length, List.length_singleton]

/-- C10: `addOption` keeps `min_votes` / `max_votes` and every pre-existing
option's non-rank fields (`name`, `description`, urls, `count`) unchanged,
and the appended option has `count = 0` and blank text/url fields. -/
theorem addOption_frame (v : Vote) :
    (Vote.addOption v).min_votes = v.min_votes ∧
    (Vote.addOption v).max_votes = v.max_votes ∧
    (Vote.addOption v).status = v.status ∧
    (∀ o ∈ v.options, ∃ r ∈ (Vote.addOption v).options,
      r.id = o.id ∧ r.name = o.name ∧ r.description = o.description ∧
      r.picture_url = o.picture_url ∧ r.personal_link = o.personal_link ∧
      r.link_name = o.link_name ∧ r.count = o.count) ∧
    (∃ opt, (Vote.addOption v).options = (Vote.renumberOptions v).options ++ [opt] ∧
      opt.count = 0 ∧ opt.description = "" ∧ opt.picture_url = "" ∧
      opt.personal_link = "" ∧ opt.link_name = "") := by
  refine ⟨rfl, rfl, rfl, ?_, _, rfl, rfl, rfl, rfl, rfl, rfl⟩
  intro o ho
  have hos : o ∈ orderByNumber v.options := (orderByNumber_perm v.options).mem_iff.2 ho
  obtain ⟨r, hr, hprops⟩ := assignNumbers_mem (orderByNumber v.options) 0 o hos
  exact ⟨r, List.mem_append_left _ hr, hprops⟩

/-- C10 witness: the frame conditions instantiated at `vFive`. -/
theorem addOption_frame_witness :
    (Vote.addOption vFive).min_votes = vFive.min_votes ∧
    (Vote.addOption vFive).max_votes = vFive.max_votes ∧
    ∃ r ∈ (Vote.addOption vFive).options,
      r.id = (mkRow 3 2).id ∧ r.name = (mkRow 3 2).name ∧
      r.description = (mkRow 3 2).description ∧
      r.picture_url = (mkRow 3 2).picture_url ∧
      r.personal_link = (mkRow 3 2).personal_link ∧
      r.link_name = (mkRow 3 2).link_name ∧ r.count = (mkRow 3 2).count := by
  obtain ⟨hmin, hmax, _, hall, _⟩ := addOption_frame vFive
  exact ⟨hmin, hmax, hall (mkRow 3 2) (by decide)⟩

/-- C6: `renumberOptions` is idempotent: a second call returns the exact
same persisted state (identical rows, identical ordering, no change). -/
theorem renumberOptions_idempotent (v : Vote) :
    (Vote.renumberOptions v).renumberOptions = Vote.renumberOptions v := by
  have hnum : numbers (Vote.renumberOptions v).options = rangeInt v.options.length :=
    numbers_renumberOptions v
  have hsorted : List.Sorted (fun a b : OptionRow => a.number ≤ b.number)
      (Vote.renumberOptions v).options := by
    have h1 : List.Sorted (fun a b : Int => a ≤ b)
        (numbers (Vote.renumberOptions v).options) := by
      rw [hnum]
      exact rangeInt_sorted _
    unfold numbers at h1
    exact (List.pairwise_map).1 h1
  have hsort_eq : orderByNumber (Vote.renumberOptions v).options =
      (Vote.renumberOptions v).options :=
    List.Sorted.insertionSort_eq hsorted
  show { Vote.renumberOptions v with
    options := assignNumbers (orderByNumber (Vote.renumberOptions v).options) 0 } = _
  rw [hsort_eq]
  have hself : assignNumbers (Vote.renumberOptions v).options 0 =
      (Vote.renumberOptions v).options := by
    apply assignNumbers_eq_self
    rw [hnum, renumberOptions_length]
    unfold rangeInt
    rw [List.range_eq_range' v.options.length]
  rw [hself]

/-! Positional analysis of `renumberOptions` for the ordering claim. -/

theorem assignNumbers_get : ∀ (l : List OptionRow) (k i : Nat) (h : i < l.length),
    (assignNumbers l k).get ⟨i, by rw [assignNumbers_length]; exact h⟩ =
      { l.get ⟨i, h⟩ with number := ((k + i : Nat) : Int) } := by
  intro l
  induction l with
  | nil => intro k i h; cases h
  | cons o rest ih =>
    intro k i h
    cases i with
    | zero => rfl
    | succ i =>
      show (assignNumbers rest (k + 1)).get
        ⟨i, by rw [assignNumbers_length]; exact Nat.lt_of_succ_lt_succ h⟩ =
        { rest.get ⟨i, Nat.lt_of_succ_lt_succ h⟩ with number := ((k + (i + 1) : Nat) : Int) }
      rw [ih (k + 1) i (Nat.lt_of_succ_lt_succ h)]
      have harith : (k + 1 + i : Nat) = (k + (i + 1) : Nat) := by omega
      rw [harith]

/-- C2: `renumberOptions` makes the numbers exactly `0, …, count-1` with no
duplicates or gaps, preserves the relative order induced by the pre-call
numbers (an option numbered strictly below another ends up with a strictly
smaller new number), and leaves every option's `count` tally (and id)
unchanged. -/
theorem renumberOptions_spec (v : Vote) :
    numbers (Vote.renumberOptions v).options = rangeInt v.options.length ∧
    (Vote.renumberOptions v).options.length = v.options.length ∧
    (∀ o1 ∈ v.options, ∀ o2 ∈ v.options, o1.number < o2.number →
      ∃ r1 ∈ (Vote.renumberOptions v).options, ∃ r2 ∈ (Vote.renumberOptions v).options,
        r1.id = o1.id ∧ r1.count = o1.count ∧ r2.id = o2.id ∧ r2.count = o2.count ∧
        r1.number < r2.number) ∧
    (∀ o ∈ v.options, ∃ r ∈ (Vote.renumberOptions v).options,
      r.id = o.id ∧ r.count = o.count) := by
  refine ⟨numbers_renumberOptions v, renumberOptions_length v, ?_, ?_⟩
  · intro o1 h1 o2 h2 hlt
    obtain ⟨p1, hp1⟩ := List.mem_iff_get.1 ((orderByNumber_perm v.options).mem_iff.2 h1)
    obtain ⟨p2, hp2⟩ := List.mem_iff_get.1 ((orderByNumber_perm v.options).mem_iff.2 h2)
    have hp12 : p1 < p2 := by
      rcases lt_trichotomy p1 p2 with h | h | h
      · exact h
      · exfalso
        rw [h, hp2] at hp1
        rw [hp1] at hlt
        omega
      · exfalso
        have := (orderByNumber_sorted v.options).rel_get_of_lt h
        rw [hp1, hp2] at this
        omega
    have hp1' : (orderByNumber v.options).get ⟨p1.val, p1.isLt⟩ = o1 := hp1
    have hp2' : (orderByNumber v.options).get ⟨p2.val, p2.isLt⟩ = o2 := hp2
    have e1 := assignNumbers_get (orderByNumber v.options) 0 p1.val p1.isLt
    have e2 := assignNumbers_get (orderByNumber v.options) 0 p2.val p2.isLt
    rw [hp1'] at e1
    rw [hp2'] at e2
    refine ⟨(assignNumbers (orderByNumber v.options) 0).get
        ⟨p1.val, by rw [assignNumbers_length]; exact p1.isLt⟩,
      List.get_mem _ _ _,
      (assignNumbers (orderByNumber v.options) 0).get
        ⟨p2.val, by rw [assignNumbers_length]; exact p2.isLt⟩,
      List.get_mem _ _ _, ?_⟩
    rw [e1, e2]
    refine ⟨rfl, rfl, rfl, rfl, ?_⟩
    show ((0 + p1.val : Nat) : Int) < ((0 + p2.val : Nat) : Int)
    have : p1.val < p2.val := hp12
    omega
  · intro o ho
    have hos : o ∈ orderByNumber v.options := (orderByNumber_perm v.options).mem_iff.2 ho
    obtain ⟨r, hr, hid, _, _, _, _, _, hcnt⟩ :=
      assignNumbers_mem (orderByNumber v.options) 0 o hos
    exact ⟨r, hr, hid, hcnt⟩

/-- C2 witness: the spec's `[5, 2, 9, 0]` tampered vote; renumbering sorts it
to `0..3`, the option that had number 2 ends up strictly before the one that
had 5, and counts survive. -/
theorem renumberOptions_spec_witness :
    numbers (Vote.renumberOptions vTamper).options = rangeInt vTamper.options.length ∧
    (mkRow 2 2 ∈ vTamper.options ∧ mkRow 1 5 ∈ vTamper.options ∧
      (mkRow 2 2).number < (mkRow 1 5).number) ∧
    (∃ r1 ∈ (Vote.renumberOptions vTamper).options,
     ∃ r2 ∈ (Vote.renumberOptions vTamper).options,
      r1.id = (mkRow 2 2).id ∧ r1.count = (mkRow 2 2).count ∧
      r2.id = (mkRow 1 5).id ∧ r2.count = (mkRow 1 5).count ∧
      r1.number < r2.number) := by
  obtain ⟨hnum, _, hord, _⟩ := renumberOptions_spec vTamper
  exact ⟨hnum, ⟨by decide, by decide, by decide⟩,
    hord (mkRow 2 2) (by decide) (mkRow 1 5) (by decide) (by decide)⟩

/-- C3: on a contiguously numbered vote, moving the option at rank `k` up
(with `k < count-1`) swaps it with the option at rank `k+1`, and moving the
option at rank `k` down (with `k > 0`) swaps it with the option at rank
`k-1`; exactly those two rows change and every other row survives verbatim. -/
theorem move_swaps_adjacent {v : Vote} {o : OptionRow} (hn : NodupIds v)
    (hc : Contiguous v) (ho : o ∈ v.options) :
    (o.number + 1 < (v.options.length : Int) →
      ∃ b w, b ∈ v.options ∧ b.number = o.number + 1 ∧ b.id ≠ o.id ∧
        v.moveUpOption o = Except.ok w ∧
        List.Perm w.options
          ({ b with number := o.number } :: { o with number := o.number + 1 } ::
            (v.options.erase b).erase o) ∧
        { o with number := o.number + 1 } ∈ w.options ∧
        { b with number := o.number } ∈ w.options ∧
        (∀ r ∈ v.options, r.id ≠ o.id → r.id ≠ b.id → r ∈ w.options) ∧
        w.options.length = v.options.length) ∧
    (0 < o.number →
      ∃ b w, b ∈ v.options ∧ b.number = o.number - 1 ∧ b.id ≠ o.id ∧
        v.moveDownOption o = Except.ok w ∧
        List.Perm w.options
          ({ b with number := o.number } :: { o with number := o.number - 1 } ::
            (v.options.erase b).erase o) ∧
        { o with number := o.number - 1 } ∈ w.options ∧
        { b with number := o.number } ∈ w.options ∧
        (∀ r ∈ v.options, r.id ≠ o.id → r.id ≠ b.id → r ∈ w.options) ∧
        w.options.length = v.options.length) := by
  constructor
  · intro hk
    obtain ⟨b, w, hbv, hbnum, hbo, heq, hperm, _, _, _⟩ := moveUpOption_ok hn hc ho hk
    refine ⟨b, w, hbv, hbnum, hbo, heq, hperm, ?_, ?_, ?_, ?_⟩
    · exact hperm.mem_iff.2 (List.mem_cons_of_mem _ (List.mem_cons_self _ _))
    · exact hperm.mem_iff.2 (List.mem_cons_self _ _)
    · intro r hr hro hrb
      have h1 : r ∈ v.options.erase b :=
        (List.mem_erase_of_ne (fun he => hrb (congrArg OptionRow.id he))).2 hr
      have h2 : r ∈ (v.options.erase b).erase o :=
        (List.mem_erase_of_ne (fun he => hro (congrArg OptionRow.id he))).2 h1
      exact hperm.mem_iff.2 (List.mem_cons_of_mem _ (List.mem_cons_of_mem _ h2))
    · have hlen := hperm.length_eq
      have hb1 : (v.options.erase b).length = v.options.length - 1 :=
        List.length_erase_of_mem hbv
      have ho1 : o ∈ v.options.erase b :=
        (List.mem_erase_of_ne (fun he => hbo (congrArg OptionRow.id he.symm))).2 ho
      have ho2 : ((v.options.erase b).erase o).length = (v.options.erase b).length - 1 :=
        List.length_erase_of_mem ho1
      have hpos : 0 < (v.options.erase b).length := List.length_pos_of_mem ho1
      simp only [List.length_cons] at hlen
      omega
  · intro hk
    obtain ⟨b, w, hbv, hbnum, hbo, heq, hperm, _, _, _⟩ := moveDownOption_ok hn hc ho hk
    refine ⟨b, w, hbv, hbnum, hbo, heq, hperm, ?_, ?_, ?_, ?_⟩
    · exact hperm.mem_iff.2 (List.mem_cons_of_mem _ (List.mem_cons_self _ _))
    · exact hperm.mem_iff.2 (List.mem_cons_self _ _)
    · intro r hr hro hrb
      have h1 : r ∈ v.options.erase b :=
        (List.mem_erase_of_ne (fun he => hrb (congrArg OptionRow.id he))).2 hr
      have h2 : r ∈ (v.options.erase b).erase o :=
        (List.mem_erase_of_ne (fun he => hro (congrArg OptionRow.id he))).2 h1
      exact hperm.mem_iff.2 (List.mem_cons_of_mem _ (List.mem_cons_of_mem _ h2))
    · have hlen := hperm.length_eq
      have hb1 : (v.options.erase b).length = v.options.length - 1 :=
        List.length_erase_of_mem hbv
      have ho1 : o ∈ v.options.erase b :=
        (List.mem_erase_of_ne (fun he => hbo (congrArg OptionRow.id he.symm))).2 ho
      have ho2 : ((v.options.erase b).erase o).length = (v.options.erase b).length - 1 :=
        List.length_erase_of_mem ho1
      have hpos : 0 < (v.options.erase b).length := List.length_pos_of_mem ho1
      simp only [List.length_cons] at hlen
      omega

/-- C3 witness: moving the rank-2 option of a 0..4 vote up swaps it with the
rank-3 option; moving it down succeeds as well. -/
theorem move_swaps_adjacent_witness :
    NodupIds vFive ∧ Contiguous vFive ∧ mkRow 3 2 ∈ vFive.options ∧
    (mkRow 3 2).number + 1 < (vFive.options.length : Int) ∧
    (∃ b w, b ∈ vFive.options ∧ b.number = (mkRow 3 2).number + 1 ∧
      vFive.moveUpOption (mkRow 3 2) = Except.ok w ∧
      { mkRow 3 2 with number := (mkRow 3 2).number + 1 } ∈ w.options ∧
      { b with number := (mkRow 3 2).number } ∈ w.options ∧
      w.options.length = vFive.options.length) ∧
    (∃ b w, b ∈ vFive.options ∧ b.number = (mkRow 3 2).number - 1 ∧
      vFive.moveDownOption (mkRow 3 2) = Except.ok w) := by
  obtain ⟨hup, hdown⟩ := @move_swaps_adjacent vFive (mkRow 3 2)
    (by decide) (by decide) (by decide)
  obtain ⟨b, w, h1, h2, _, h4, _, h6, h7, _, h9⟩ := hup (by decide)
  obtain ⟨b2, w2, g1, g2, _, g4, _, _, _, _, _⟩ := hdown (by decide)
  exact ⟨by decide, by decide, by decide, by decide,
    ⟨b, w, h1, h2, h4, h6, h7, h9⟩, ⟨b2, w2, g1, g2, g4⟩⟩

/-- C7 counterexample: on a vote with the drifted numbering `[0, 5]`,
`moveDownOption` on the option at number 0 returns successfully but the
internal renumbering rewrites the other row (5 becomes 1), so the call is
not write-free for every vote. -/
theorem move_boundary_counterexample :
    mkRow 1 0 ∈ vGap.options ∧ (mkRow 1 0).number = 0 ∧
    vGap.moveDownOption (mkRow 1 0) = Except.ok
      { min_votes := 0, max_votes := 1, status := { stage := "I" },
        options := [mkRow 1 0, { mkRow 2 5 with number := 1 }] } ∧
    mkRow 2 5 ∈ vGap.options ∧
    mkRow 2 5 ∉
      [mkRow 1 0, { mkRow 2 5 with number := 1 }] := by
  refine ⟨by decide, by decide, rfl, by decide, by decide⟩

/-- C7 (amended): on a vote whose numbering is already contiguous,
`moveDownOption` on the option at number 0 and `moveUpOption` on the option
at number count-1 return successfully and change no row: the result is the
renumbered state, whose rows are a permutation of (here: value-identical to)
the original rows, with bounds and status untouched. -/
theorem move_boundary_noop {v : Vote} {o : OptionRow} (hc : Contiguous v)
    (ho : o ∈ v.options) :
    (o.number = 0 →
      v.moveDownOption o = Except.ok (Vote.renumberOptions v) ∧
      List.Perm (Vote.renumberOptions v).options v.options ∧
      (Vote.renumberOptions v).min_votes = v.min_votes ∧
      (Vote.renumberOptions v).max_votes = v.max_votes ∧
      (Vote.renumberOptions v).status = v.status) ∧
    (o.number = (v.options.length : Int) - 1 →
      v.moveUpOption o = Except.ok (Vote.renumberOptions v) ∧
      List.Perm (Vote.renumberOptions v).options v.options ∧
      (Vote.renumberOptions v).min_votes = v.min_votes ∧
      (Vote.renumberOptions v).max_votes = v.max_votes ∧
      (Vote.renumberOptions v).status = v.status) := by
  constructor
  · intro h0
    refine ⟨?_, renumberOptions_perm_of_contiguous hc, rfl, rfl, rfl⟩
    unfold Vote.moveDownOption
    rw [if_pos (mem_ids_of_mem ho), if_pos h0]
  · intro hmax
    refine ⟨?_, renumberOptions_perm_of_contiguous hc, rfl, rfl, rfl⟩
    unfold Vote.moveUpOption
    rw [if_pos (mem_ids_of_mem ho), if_pos (by rw [renumberOptions_length]; exact hmax)]

/-- C7 witness: the boundary no-ops on the contiguous 0..4 vote. -/
theorem move_boundary_noop_witness :
    Contiguous vFive ∧ mkRow 1 0 ∈ vFive.options ∧ (mkRow 1 0).number = 0 ∧
    (vFive.moveDownOption (mkRow 1 0) = Except.ok (Vote.renumberOptions vFive) ∧
     List.Perm (Vote.renumberOptions vFive).options vFive.options) ∧
    mkRow 5 4 ∈ vFive.options ∧
    (mkRow 5 4).number = (vFive.options.length : Int) - 1 ∧
    vFive.moveUpOption (mkRow 5 4) = Except.ok (Vote.renumberOptions vFive) := by
  obtain ⟨hdown, _⟩ := @move_boundary_noop vFive (mkRow 1 0) (by decide) (by decide)
  obtain ⟨_, hup⟩ := @move_boundary_noop vFive (mkRow 5 4) (by decide) (by decide)
  obtain ⟨h1, h2, _, _, _⟩ := hdown (by decide)
  obtain ⟨g1, _, _, _, _⟩ := hup (by decide)
  exact ⟨by decide, by decide, by decide, ⟨h1, h2⟩, by decide, by decide, g1⟩

/-! Bookkeeping of option ids under deletion. -/

theorem ids_filter_ne (l : List OptionRow) (i : Nat) :
    ids (l.filter (fun r => r.id ≠ i)) = (ids l).filter (fun x => x ≠ i) := by
  induction l with
  | nil => rfl
  | cons c t ih =>
    simp only [ids, List.map_cons, List.filter_cons] at ih ⊢
    by_cases h : c.id = i
    · rw [if_neg (by simp [h]), if_neg (by simp [h])]
      exact ih
    · rw [if_pos (by simp [h]), if_pos (by simp [h]), List.map_cons, ih]

/-- C4: for a vote with `0 ≤ min_votes ≤ max_votes`, deleting one of its
options succeeds, removes exactly that option, clamps `min_votes` and
`max_votes` down to the new count when they exceed it (never raising
either), and renumbers the survivors contiguously; afterwards
`min_votes ≤ max_votes ≤ new count` holds. -/
theorem deleteOption_spec {v : Vote} {o : OptionRow} (hn : NodupIds v)
    (h0 : 0 ≤ v.min_votes) (h1 : v.min_votes ≤ v.max_votes) (ho : o ∈ v.options) :
    ∃ w, v.deleteOption o = Except.ok w ∧
      w.options.length = v.options.length - 1 ∧
      List.Perm (ids w.options) ((ids v.options).erase o.id) ∧
      w.min_votes = min v.min_votes (w.options.length : Int) ∧
      w.max_votes = min v.max_votes (w.options.length : Int) ∧
      w.min_votes ≤ v.min_votes ∧ w.max_votes ≤ v.max_votes ∧
      0 ≤ w.min_votes ∧ w.min_votes ≤ w.max_votes ∧
      w.max_votes ≤ (w.options.length : Int) ∧
      numbers w.options = rangeInt w.options.length := by
  have hidF : ids (v.options.filter (fun r => r.id ≠ o.id)) =
      (ids v.options).erase o.id := by
    rw [ids_filter_ne]
    rw [List.Nodup.erase_eq_filter hn]
    have hfun : (fun x : Nat => decide (x ≠ o.id)) = (fun x : Nat => x != o.id) := by
      funext x
      by_cases hx : x = o.id <;> simp [hx]
    rw [hfun]
  have hFl : (v.options.filter (fun r => r.id ≠ o.id)).length =
      v.options.length - 1 := by
    have h4 : (ids (v.options.filter (fun r => r.id ≠ o.id))).length =
        (v.options.filter (fun r => r.id ≠ o.id)).length := by
      unfold ids
      exact List.length_map _ _
    have h3 : ((ids v.options).erase o.id).length = (ids v.options).length - 1 :=
      List.length_erase_of_mem (mem_ids_of_mem ho)
    have h5 : (ids v.options).length = v.options.length := by
      unfold ids
      exact List.length_map _ _
    rw [← h4, hidF, h3, h5]
  refine ⟨_, deleteOption_ok ho, ?_, ?_, ?_, ?_, ?_, ?_, ?_, ?_, ?_, ?_⟩
  · rw [renumberOptions_length]
    exact hFl
  · have hperm := ids_renumberOptions_perm
      { v with
        options := v.options.filter (fun r => r.id ≠ o.id),
        min_votes :=
          if v.min_votes > ((v.options.filter (fun r => r.id ≠ o.id)).length : Int) then
            ((v.options.filter (fun r => r.id ≠ o.id)).length : Int)
          else v.min_votes,
        max_votes :=
          if v.max_votes > ((v.options.filter (fun r => r.id ≠ o.id)).length : Int) then
            ((v.options.filter (fun r => r.id ≠ o.id)).length : Int)
          else v.max_votes }
    rw [hidF] at hperm
    exact hperm
  · show (if v.min_votes > ((v.options.filter (fun r => r.id ≠ o.id)).length : Int) then
        ((v.options.filter (fun r => r.id ≠ o.id)).length : Int) else v.min_votes) = _
    rw [renumberOptions_length]
    dsimp only
    split_ifs <;> omega
  · show (if v.max_votes > ((v.options.filter (fun r => r.id ≠ o.id)).length : Int) then
        ((v.options.filter (fun r => r.id ≠ o.id)).length : Int) else v.max_votes) = _
    rw [renumberOptions_length]
    dsimp only
    split_ifs <;> omega
  · show (if v.min_votes > ((v.options.filter (fun r => r.id ≠ o.id)).length : Int) then
        ((v.options.filter (fun r => r.id ≠ o.id)).length : Int) else v.min_votes) ≤ _
    split_ifs <;> omega
  · show (if v.max_votes > ((v.options.filter (fun r => r.id ≠ o.id)).length : Int) then
        ((v.options.filter (fun r => r.id ≠ o.id)).length : Int) else v.max_votes) ≤ _
    split_ifs <;> omega
  · show 0 ≤ (if v.min_votes > ((v.options.filter (fun r => r.id ≠ o.id)).length : Int) then
        ((v.options.filter (fun r => r.id ≠ o.id)).length : Int) else v.min_votes)
    split_ifs <;> omega
  · show (if v.min_votes > ((v.options.filter (fun r => r.id ≠ o.id)).length : Int) then
        ((v.options.filter (fun r => r.id ≠ o.id)).length : Int) else v.min_votes) ≤
      (if v.max_votes > ((v.options.filter (fun r => r.id ≠ o.id)).length : Int) then
        ((v.options.filter (fun r => r.id ≠ o.id)).length : Int) else v.max_votes)
    split_ifs <;> omega
  · show (if v.max_votes > ((v.options.filter (fun r => r.id ≠ o.id)).length : Int) then
        ((v.options.filter (fun r => r.id ≠ o.id)).length : Int) else v.max_votes) ≤ _
    rw [renumberOptions_length]
    dsimp only
    split_ifs <;> omega
  · rw [numbers_renumberOptions, renumberOptions_length]

/-- C4 witness: the spec's clamp test — `min_votes = 2`, `max_votes = 3`,
three options; deleting one clamps `max_votes` to 2, keeps `min_votes` at 2,
and leaves two options numbered 0 and 1. -/
theorem deleteOption_spec_witness :
    NodupIds vClamp ∧ 0 ≤ vClamp.min_votes ∧ vClamp.min_votes ≤ vClamp.max_votes ∧
    mkRow 3 2 ∈ vClamp.options ∧
    ∃ w, vClamp.deleteOption (mkRow 3 2) = Except.ok w ∧
      w.min_votes = 2 ∧ w.max_votes = 2 ∧ w.options.length = 2 ∧
      numbers w.options = rangeInt 2 := by
  obtain ⟨w, hw, hlen, _, hmin, hmax, _, _, _, _, _, hnum⟩ :=
    @deleteOption_spec vClamp (mkRow 3 2) (by decide) (by decide) (by decide) (by decide)
  have h2 : w.options.length = 2 := by rw [hlen]; decide
  refine ⟨by decide, by decide, by decide, by decide, w, hw, ?_, ?_, h2, ?_⟩
  · rw [hmin, h2]; decide
  · rw [hmax, h2]; decide
  · rw [hnum, h2]

/-- C1 counterexample: from a vote whose numbering has drifted to `[0, 3, 4]`
(distinct ids, distinct numbers), a single `moveDownOption` call on the
middle option completes without error yet leaves the numbers `{0, 2, 3}`,
which is not `{0, 1, 2}`: the dense zero-based invariant does not hold for
every vote and every error-free call sequence. -/
theorem sequences_numbering_counterexample :
    NodupIds vDrift ∧
    runCmds vDrift [Cmd.moveDown 2] = Except.ok vDriftAfter ∧
    numbers vDriftAfter.options = [0, 2, 3] ∧
    vDriftAfter.options.length = 3 ∧
    ¬ List.Perm (numbers vDriftAfter.options) (rangeInt vDriftAfter.options.length) := by
  refine ⟨by decide, rfl, by decide, by decide, by decide⟩

/-- C1 (amended): starting from a vote whose option ids are pairwise distinct
and whose numbers are exactly `{0, …, count-1}`, every finite sequence of
add / delete / move-up / move-down calls that completes without error leaves
the option numbers pairwise distinct and exactly `{0, …, count-1}`. -/
theorem sequences_preserve_numbering {v w : Vote} {cs : List Cmd}
    (hn : NodupIds v) (hc : Contiguous v)
    (h : runCmds v cs = Except.ok w) :
    (numbers w.options).Nodup ∧
    List.Perm (numbers w.options) (rangeInt w.options.length) := by
  obtain ⟨_, hcw⟩ := runCmds_inv hn hc h
  exact ⟨(hcw.nodup_iff).2 (rangeInt_nodup _), hcw⟩

/-- The state `vFive` reaches after a `moveDownOption` on its rank-2 option. -/
def wFiveDown : Vote :=
  { min_votes := 1, max_votes := 2, status := { stage := "I" },
    options := [mkRow 1 0, mkRow 2 2, mkRow 3 1, mkRow 4 3, mkRow 5 4] }

/-- C1 witness: a concrete error-free sequence on the contiguous 0..4 vote. -/
theorem sequences_preserve_numbering_witness :
    NodupIds vFive ∧ Contiguous vFive ∧
    runCmds vFive [Cmd.moveDown 3] = Except.ok wFiveDown ∧
    ((numbers wFiveDown.options).Nodup ∧
      List.Perm (numbers wFiveDown.options) (rangeInt wFiveDown.options.length)) :=
  ⟨by decide, by decide, rfl,
    @sequences_preserve_numbering vFive wFiveDown [Cmd.moveDown 3]
      (by decide) (by decide) rfl⟩
